import Mathlib

/-!
Shallow embedding of the pgrep utility (src/main.rs).

The program is a recursive grep: `process_file` reads a file's bytes,
decodes them as UTF-8 (a decoding failure silently yields zero matches),
splits the text into lines with Rust's `str::lines` semantics, and collects
a `Record` for each line matched by the compiled regex.  `process_path`
resolves a path's metadata, scans regular files, recurses into directories
(routing failures of a child subtree to the error callback and continuing
with the siblings), and silently skips entries that are neither file nor
directory.  `run` compiles the pattern and calls `process_path`, only
printing the traversal outcome.

The filesystem is modelled as a tree (`FsNode`) whose nodes record the
outcome of each fallible OS call the Rust code performs at that node:
metadata resolution (`badMeta`), reading a file's bytes (`file` carries an
`Except`), listing a directory (`dirListErr`), and resolving one directory
entry of the listing iterator (`DirEntry.entryErr`).  The two callbacks
`ff`/`ef` of the Rust code are pure printers; they are embedded as an event
trace: each callback invocation appends one `Event`.
-/

namespace Pgrep

/-- Error values carried by `failure::Error` in the Rust code; their payload
is opaque to the program, a string suffices. -/
abbrev Err := String

/-- `struct Record { line: usize, tx: String }` — one matching line:
zero-based line number and the line's text. -/
structure Record where
  line : Nat
  tx : List Char
  deriving DecidableEq

/-- One callback invocation performed by the walker: `ff(path, records)`
(the result sink) or `ef(e)` (the error sink). -/
inductive Event where
  | onResult (path : List String) (recs : List Record)
  | onError (e : Err)
  deriving DecidableEq

mutual
/-- A filesystem node as observed by the Rust code.  Each constructor fixes
the outcome of the fallible OS calls made at that node: `badMeta e` is a
path whose `p.metadata()` fails with `e`; `file r` is a regular file whose
`std::fs::read` returns `r`; `dirListErr e` is a directory whose
`read_dir` fails with `e`; `dir es` is a directory whose listing yields the
entries `es`; `special` is an entry whose resolved type is neither regular
file nor directory. -/
inductive FsNode where
  | file (read : Except Err (List Nat))
  | dir (entries : List DirEntry)
  | dirListErr (e : Err)
  | special
  | badMeta (e : Err)

/-- One item yielded by the `read_dir` iterator: `entryErr e` is an item
where `d?` fails with `e`; `entry name node` is a resolved child. -/
inductive DirEntry where
  | entryErr (e : Err)
  | entry (name : String) (node : FsNode)
end

/-- Is `b` a UTF-8 continuation byte (`0x80..=0xBF`)? -/
def isCont (b : Nat) : Bool := 0x80 ≤ b && b ≤ 0xBF

/-- UTF-8 decoding of a byte sequence, `String::from_utf8` of the Rust
standard library: `some` of the decoded characters on valid input, `none`
on any encoding violation (bad leading byte, truncated sequence, bad
continuation byte, overlong form, surrogate, out-of-range scalar). -/
def utf8Decode? : List Nat → Option (List Char)
  | [] => some []
  | b :: rest =>
    if b < 0x80 then (utf8Decode? rest).map (fun cs => Char.ofNat b :: cs)
    else match rest with
      | [] => none
      | b1 :: rest1 =>
        if 0xC2 ≤ b && b ≤ 0xDF then
          if isCont b1 then
            (utf8Decode? rest1).map
              (fun cs => Char.ofNat ((b - 0xC0) * 0x40 + (b1 - 0x80)) :: cs)
          else none
        else match rest1 with
          | [] => none
          | b2 :: rest2 =>
            if 0xE0 ≤ b && b ≤ 0xEF then
              if (if b = 0xE0 then 0xA0 ≤ b1 && b1 ≤ 0xBF
                  else if b = 0xED then 0x80 ≤ b1 && b1 ≤ 0x9F
                  else isCont b1) && isCont b2 then
                (utf8Decode? rest2).map
                  (fun cs => Char.ofNat
                    ((b - 0xE0) * 0x1000 + (b1 - 0x80) * 0x40 + (b2 - 0x80)) :: cs)
              else none
            else match rest2 with
              | [] => none
              | b3 :: rest3 =>
                if 0xF0 ≤ b && b ≤ 0xF4 then
                  if (if b = 0xF0 then 0x90 ≤ b1 && b1 ≤ 0xBF
                      else if b = 0xF4 then 0x80 ≤ b1 && b1 ≤ 0x8F
                      else isCont b1) && isCont b2 && isCont b3 then
                    (utf8Decode? rest3).map
                      (fun cs => Char.ofNat
                        ((b - 0xF0) * 0x40000 + (b1 - 0x80) * 0x1000
                          + (b2 - 0x80) * 0x40 + (b3 - 0x80)) :: cs)
                  else none
                else none

/-- Remove one leading `'\r'` (the accumulator of `linesGo` is reversed, so
this strips a carriage return that immediately precedes the line feed). -/
def dropCR : List Char → List Char
  | [] => []
  | c :: t => if c = '\r' then t else c :: t

/-- Worker for `strLines`; `acc` is the current line, reversed. -/
def linesGo : List Char → List Char → List (List Char)
  | [], acc => if acc = [] then [] else [acc.reverse]
  | c :: rest, acc =>
    if c = '\n' then (dropCR acc).reverse :: linesGo rest []
    else linesGo rest (c :: acc)

/-- Rust's `str::lines`: split at each `'\n'`, dropping a `'\r'` that
immediately precedes it; the text after the last `'\n'` is a final line
kept verbatim (a trailing `'\r'` without a line feed stays), and is dropped
when empty. -/
def strLines (s : List Char) : List (List Char) :=
  linesGo s []

/-- The scanning loop of `process_file`:
`for (i, l) in ss.lines().enumerate() { if re.is_match(l) { res.push(...) } }`,
with `i` starting at the given index.  The matcher is embedded as its
`is_match` predicate. -/
def scanLines (re : List Char → Bool) : Nat → List (List Char) → List Record
  | _, [] => []
  | i, l :: rest =>
    if re l then ⟨i, l⟩ :: scanLines re (i + 1) rest
    else scanLines re (i + 1) rest

/-- `process_file`: given the outcome of `std::fs::read` and the matcher,
propagate a read failure; on a UTF-8 decoding failure the `if let Ok(ss)`
body is skipped and the empty result vector is returned; otherwise collect
the matching lines. -/
def process_file (read : Except Err (List Nat)) (re : List Char → Bool) :
    Except Err (List Record) :=
  match read with
  | .error e => .error e
  | .ok bts =>
    match utf8Decode? bts with
    | none => .ok []
    | some ss => .ok (scanLines re 0 (strLines ss))

mutual
/-- `process_path`: resolve metadata (failure propagates with `?`); scan a
regular file (a scan failure propagates with `?`, success invokes the
result sink once); recurse over a directory's entries; do nothing for other
node types.  Returns the trace of sink invocations together with the
`Result<(), Error>` of the call. -/
def process_path (node : FsNode) (re : List Char → Bool) (path : List String) :
    List Event × Except Err Unit :=
  match node with
  | .badMeta e => ([], .error e)
  | .dirListErr e => ([], .error e)
  | .special => ([], .ok ())
  | .file read =>
    match process_file read re with
    | .error e => ([], .error e)
    | .ok dt => ([.onResult path dt], .ok ())
  | .dir entries => processEntries entries re path

/-- The `for d in dd` loop of `process_path`: `let entry = d?` propagates a
failed iterator item immediately; a failing recursive `process_path` call
is caught by `if let Err(e)` and routed to the error sink, and the loop
continues with the next sibling. -/
def processEntries (entries : List DirEntry) (re : List Char → Bool)
    (path : List String) : List Event × Except Err Unit :=
  match entries with
  | [] => ([], .ok ())
  | .entryErr e :: _ => ([], .error e)
  | .entry name node :: rest =>
    let r := process_path node re (path ++ [name])
    let evs := match r.2 with
      | .ok _ => r.1
      | .error e => r.1 ++ [.onError e]
    let rr := processEntries rest re path
    (evs ++ rr.1, rr.2)
end

/-- `run` after argument parsing, parameterised by the outcome of
`Regex::new(&args.pattern)` (the regex crate is external; a compiled
pattern is its `is_match` predicate): a compilation failure propagates with
`?` before any traversal; otherwise `process_path` runs and its outcome is
only printed — `run` returns `Ok(())` regardless. -/
def run (compileResult : Except Err (List Char → Bool)) (root : FsNode)
    (rootPath : List String) : List Event × Except Err Unit :=
  match compileResult with
  | .error e => ([], .error e)
  | .ok re =>
    let p := process_path root re rootPath
    (p.1, .ok ())

/-- `main`: the `if let Err(e) = run()` branch — `some e` exactly when `run`
returned an error, i.e. when the top-level error message is printed. -/
def mainReports (compileResult : Except Err (List Char → Bool)) (root : FsNode)
    (rootPath : List String) : Option Err :=
  match (run compileResult root rootPath).2 with
  | .error e => some e
  | .ok _ => none

/-- Substring search: `Regex::new("lit").is_match(l)` for a literal pattern
`lit` is containment of `lit` in `l`.  Used to instantiate the abstract
matcher on concrete scenarios. -/
def containsSub (pat : List Char) : List Char → Bool
  | [] => pat.isEmpty
  | c :: rest => pat.isPrefixOf (c :: rest) || containsSub pat rest

/-- ASCII text to bytes: the file contents of the concrete scenarios are
ASCII, whose UTF-8 encoding is the identity on code points. -/
def asciiBytes (s : List Char) : List Nat :=
  s.map Char.toNat

/-- Is this event an invocation of the result sink? -/
def isResultEvent : Event → Bool
  | .onResult _ _ => true
  | .onError _ => false

/-- Is this event an invocation of the error sink? -/
def isErrorEvent : Event → Bool
  | .onResult _ _ => false
  | .onError _ => true

/-- Number of result-sink invocations in a trace. -/
def countResults (evs : List Event) : Nat :=
  (evs.filter isResultEvent).length

/-- Number of error-sink invocations in a trace. -/
def countErrors (evs : List Event) : Nat :=
  (evs.filter isErrorEvent).length

/-- A directory entry that resolves to a readable, UTF-8-decodable regular
file. -/
def IsReadableFile (d : DirEntry) : Prop :=
  ∃ nm bts, d = .entry nm (.file (.ok bts)) ∧ (utf8Decode? bts).isSome = true

/-- Each line, followed by the terminator `sep`. -/
def termJoin (sep : List Char) : List (List Char) → List Char
  | [] => []
  | l :: rest => l ++ sep ++ termJoin sep rest

example : utf8Decode? (asciiBytes "foo\nbar".toList) = some "foo\nbar".toList := by
  decide

example : utf8Decode? [0xFF] = none := by decide

example : strLines "foo\nbar\nfoobar\n".toList
    = ["foo".toList, "bar".toList, "foobar".toList] := by decide

example : strLines "a\r\nb".toList = ["a".toList, "b".toList] := by decide

example : strLines "a\rb".toList = ["a\rb".toList] := by decide

example : process_file (.ok (asciiBytes "foo\nbar\nfoobar\n".toList))
      (containsSub "foo".toList)
    = .ok [⟨0, "foo".toList⟩, ⟨2, "foobar".toList⟩] := by rfl

/-! ## Helper lemmas about the walker -/

theorem processEntries_nil (re : List Char → Bool) (path : List String) :
    processEntries [] re path = ([], .ok ()) := rfl

theorem processEntries_cons_err (e : Err) (rest : List DirEntry)
    (re : List Char → Bool) (path : List String) :
    processEntries (.entryErr e :: rest) re path = ([], .error e) := rfl

theorem processEntries_cons_entry (name : String) (node : FsNode)
    (rest : List DirEntry) (re : List Char → Bool) (path : List String) :
    processEntries (.entry name node :: rest) re path
      = ((match (process_path node re (path ++ [name])).2 with
          | .ok _ => (process_path node re (path ++ [name])).1
          | .error e => (process_path node re (path ++ [name])).1 ++ [.onError e])
           ++ (processEntries rest re path).1,
         (processEntries rest re path).2) := by
  simp only [processEntries]

theorem processEntries_cons_entry_ok (name : String) (node : FsNode)
    (rest : List DirEntry) (re : List Char → Bool) (path : List String)
    (h : (process_path node re (path ++ [name])).2 = .ok ()) :
    processEntries (.entry name node :: rest) re path
      = ((process_path node re (path ++ [name])).1 ++ (processEntries rest re path).1,
         (processEntries rest re path).2) := by
  rw [processEntries_cons_entry, h]

theorem processEntries_cons_entry_error (name : String) (node : FsNode)
    (rest : List DirEntry) (re : List Char → Bool) (path : List String) (e : Err)
    (h : (process_path node re (path ++ [name])).2 = .error e) :
    processEntries (.entry name node :: rest) re path
      = ((process_path node re (path ++ [name])).1 ++ .onError e :: (processEntries rest re path).1,
         (processEntries rest re path).2) := by
  rw [processEntries_cons_entry, h]
  simp

/-- A list of resolved entries (no iterator failures at the top level) never
makes `processEntries` fail: child failures are routed to the error sink. -/
theorem processEntries_entries_ok (re : List Char → Bool) (path : List String) :
    ∀ pre : List DirEntry, (∀ d ∈ pre, ∃ nm nd, d = .entry nm nd) →
      (processEntries pre re path).2 = .ok () := by
  intro pre
  induction pre with
  | nil => intro _; rfl
  | cons d rest ih =>
    intro h
    obtain ⟨nm, nd, rfl⟩ := h d (List.mem_cons_self d rest)
    rw [processEntries_cons_entry]
    exact ih fun d hd => h d (List.mem_cons_of_mem _ hd)

/-- Processing a listing made of resolved entries followed by anything
concatenates the traces of the two parts, and the outcome is that of the
second part. -/
theorem processEntries_append (re : List Char → Bool) (path : List String)
    (tail : List DirEntry) :
    ∀ pre : List DirEntry, (∀ d ∈ pre, ∃ nm nd, d = .entry nm nd) →
      processEntries (pre ++ tail) re path
        = ((processEntries pre re path).1 ++ (processEntries tail re path).1,
           (processEntries tail re path).2) := by
  intro pre
  induction pre with
  | nil => intro _; simp [processEntries_nil]
  | cons d rest ih =>
    intro h
    obtain ⟨nm, nd, rfl⟩ := h d (List.mem_cons_self d rest)
    rw [List.cons_append, processEntries_cons_entry, processEntries_cons_entry,
      ih fun d hd => h d (List.mem_cons_of_mem _ hd)]
    simp [List.append_assoc]

/-- Scanning a readable UTF-8 file invokes the result sink exactly once and
succeeds. -/
theorem process_path_readable_file (bts : List Nat) (ss : List Char)
    (re : List Char → Bool) (path : List String)
    (h : utf8Decode? bts = some ss) :
    process_path (.file (.ok bts)) re path
      = ([.onResult path (scanLines re 0 (strLines ss))], .ok ()) := by
  simp [process_path, process_file, h]

/-- Over a listing of readable files, the walker reports one result per file,
no errors, and succeeds. -/
theorem processEntries_readable (re : List Char → Bool) (path : List String) :
    ∀ files : List DirEntry, (∀ d ∈ files, IsReadableFile d) →
      countErrors (processEntries files re path).1 = 0 ∧
      countResults (processEntries files re path).1 = files.length ∧
      (processEntries files re path).2 = .ok () := by
  intro files
  induction files with
  | nil => intro _; exact ⟨rfl, rfl, rfl⟩
  | cons d rest ih =>
    intro h
    obtain ⟨nm, bts, rfl, hdec⟩ := h d (List.mem_cons_self d rest)
    obtain ⟨ss, hss⟩ := Option.isSome_iff_exists.mp hdec
    obtain ⟨h1, h2, h3⟩ := ih fun d hd => h d (List.mem_cons_of_mem _ hd)
    rw [processEntries_cons_entry, process_path_readable_file bts ss re _ hss]
    refine ⟨?_, ?_, h3⟩
    · simpa [countErrors, isErrorEvent] using h1
    · simpa [countResults, isResultEvent] using h2

theorem countErrors_append (l1 l2 : List Event) :
    countErrors (l1 ++ l2) = countErrors l1 + countErrors l2 := by
  simp [countErrors, List.filter_append]

theorem countResults_append (l1 l2 : List Event) :
    countResults (l1 ++ l2) = countResults l1 + countResults l2 := by
  simp [countResults, List.filter_append]

theorem countErrors_cons_onError (e : Err) (l : List Event) :
    countErrors (.onError e :: l) = countErrors l + 1 := by
  simp [countErrors, isErrorEvent, List.length_cons]

theorem countResults_cons_onError (e : Err) (l : List Event) :
    countResults (.onError e :: l) = countResults l := by
  simp [countResults, isResultEvent]

/-! ## Helper lemmas about the scanning loop -/

/-- Every record collected by the scanning loop started at index `i` is a
matching line of the scanned list, at offset `line - i`. -/
theorem scanLines_mem (re : List Char → Bool) :
    ∀ ls : List (List Char), ∀ i, ∀ r ∈ scanLines re i ls,
      re r.tx = true ∧ i ≤ r.line ∧
      ∃ h : r.line - i < ls.length, ls.get ⟨r.line - i, h⟩ = r.tx := by
  intro ls
  induction ls with
  | nil =>
    intro i r hr
    simp [scanLines] at hr
  | cons l rest ih =>
    intro i r hr
    simp only [scanLines] at hr
    by_cases hm : re l
    · rw [if_pos hm] at hr
      rcases List.mem_cons.mp hr with h0 | h1
      · subst h0
        refine ⟨hm, Nat.le_refl i, ?_⟩
        simp only [Nat.sub_self]
        exact ⟨Nat.succ_pos _, rfl⟩
      · obtain ⟨hre, hle, hlt, hget⟩ := ih (i + 1) r h1
        refine ⟨hre, by omega, ?_⟩
        have hj : r.line - i = (r.line - (i + 1)) + 1 := by omega
        rw [hj]
        exact ⟨Nat.succ_lt_succ hlt, hget⟩
    · rw [if_neg hm] at hr
      obtain ⟨hre, hle, hlt, hget⟩ := ih (i + 1) r hr
      refine ⟨hre, by omega, ?_⟩
      have hj : r.line - i = (r.line - (i + 1)) + 1 := by omega
      rw [hj]
      exact ⟨Nat.succ_lt_succ hlt, hget⟩

/-- Every matching line of the scanned list yields a record. -/
theorem scanLines_complete (re : List Char → Bool) :
    ∀ ls : List (List Char), ∀ i j, ∀ h : j < ls.length,
      re (ls.get ⟨j, h⟩) = true →
      (⟨i + j, ls.get ⟨j, h⟩⟩ : Record) ∈ scanLines re i ls := by
  intro ls
  induction ls with
  | nil =>
    intro i j h
    exact absurd h (by simp)
  | cons l rest ih =>
    intro i j h hm
    cases j with
    | zero =>
      have hm0 : re l = true := hm
      simp only [scanLines, if_pos hm0]
      exact List.mem_cons_self _ _
    | succ j =>
      have hj : j < rest.length := Nat.lt_of_succ_lt_succ h
      have hm1 : re (rest.get ⟨j, hj⟩) = true := hm
      have hmem := ih (i + 1) j hj hm1
      have heq : i + (j + 1) = (i + 1) + j := by omega
      simp only [scanLines]
      by_cases hl : re l
      · rw [if_pos hl]
        refine List.mem_cons_of_mem _ ?_
        rw [heq]
        exact hmem
      · rw [if_neg hl]
        rw [heq]
        exact hmem

/-- The line indices collected by the scanning loop are strictly
increasing. -/
theorem scanLines_map_line_lt (re : List Char → Bool) :
    ∀ ls : List (List Char), ∀ i,
      ((scanLines re i ls).map Record.line).Pairwise (· < ·) := by
  intro ls
  induction ls with
  | nil => intro i; simp [scanLines]
  | cons l rest ih =>
    intro i
    simp only [scanLines]
    by_cases hl : re l
    · rw [if_pos hl]
      simp only [List.map_cons]
      refine List.Pairwise.cons ?_ (ih (i + 1))
      intro x hx
      obtain ⟨r, hr, rfl⟩ := List.mem_map.mp hx
      have := (scanLines_mem re rest (i + 1) r hr).2.1
      omega
    · rw [if_neg hl]
      exact ih (i + 1)

/-! ## Helper lemmas about line splitting -/

theorem dropCR_eq_self (m : List Char) (h : '\r' ∉ m) : dropCR m = m := by
  cases m with
  | nil => rfl
  | cons c t =>
    have hc : ¬ c = '\r' := fun hcc => h (hcc ▸ List.mem_cons_self c t)
    simp [dropCR, hc]

/-- Pushing a newline-free chunk through the splitting loop only extends
the accumulator. -/
theorem linesGo_no_nl (rest : List Char) :
    ∀ l acc, '\n' ∉ l → linesGo (l ++ rest) acc = linesGo rest (l.reverse ++ acc) := by
  intro l
  induction l with
  | nil => intro acc _; simp
  | cons c l ih =>
    intro acc h
    have hc : ¬ c = '\n' := fun hcc => h (hcc ▸ List.mem_cons_self c l)
    simp only [List.cons_append, linesGo, if_neg hc, List.append_eq]
    rw [ih (c :: acc) fun hl => h (List.mem_cons_of_mem c hl)]
    simp [List.append_assoc]

/-- A newline-free content is a single line (kept verbatim), or no line at
all when empty: a lone carriage return does not terminate a line. -/
theorem strLines_single_line (l : List Char) (h : '\n' ∉ l) :
    strLines l = if l = [] then [] else [l] := by
  have h1 : linesGo (l ++ []) [] = linesGo [] (l.reverse ++ []) := linesGo_no_nl [] l [] h
  rw [List.append_nil, List.append_nil] at h1
  rw [strLines, h1]
  simp only [linesGo, List.reverse_eq_nil_iff, List.reverse_reverse]

/-- Lines free of newline and carriage-return characters are recovered
exactly both from `"\n"`-terminated and from `"\r\n"`-terminated content. -/
theorem strLines_termJoin (ls : List (List Char))
    (h : ∀ l ∈ ls, '\n' ∉ l ∧ '\r' ∉ l) :
    strLines (termJoin ['\n'] ls) = ls ∧ strLines (termJoin ['\r', '\n'] ls) = ls := by
  induction ls with
  | nil => exact ⟨rfl, rfl⟩
  | cons l rest ih =>
    obtain ⟨hnl, hcr⟩ := h l (List.mem_cons_self l rest)
    obtain ⟨ih1, ih2⟩ := ih fun l hl => h l (List.mem_cons_of_mem _ hl)
    constructor
    · show strLines (l ++ ['\n'] ++ termJoin ['\n'] rest) = l :: rest
      rw [strLines, List.append_assoc, linesGo_no_nl _ l [] hnl, List.append_nil]
      show (dropCR l.reverse).reverse :: linesGo (termJoin ['\n'] rest) [] = l :: rest
      rw [dropCR_eq_self l.reverse (by simpa using hcr), List.reverse_reverse]
      exact congrArg _ ih1
    · show strLines (l ++ ['\r', '\n'] ++ termJoin ['\r', '\n'] rest) = l :: rest
      have hsh : l ++ ['\r', '\n'] ++ termJoin ['\r', '\n'] rest
          = (l ++ ['\r']) ++ ('\n' :: termJoin ['\r', '\n'] rest) := by
        simp
      have hnl2 : '\n' ∉ l ++ ['\r'] := by
        simp [hnl]
      rw [strLines, hsh, linesGo_no_nl _ (l ++ ['\r']) [] hnl2, List.append_nil]
      show (dropCR (l ++ ['\r']).reverse).reverse
            :: linesGo (termJoin ['\r', '\n'] rest) [] = l :: rest
      rw [List.reverse_append]
      show (dropCR ('\r' :: l.reverse)).reverse
            :: linesGo (termJoin ['\r', '\n'] rest) [] = l :: rest
      rw [show dropCR ('\r' :: l.reverse) = l.reverse from by simp [dropCR],
        List.reverse_reverse]
      exact congrArg _ ih2

/-! ## Claim theorems -/

/-- Claim C3: metadata-resolution failures are fatal exactly where they
occur.  At the root, `process_path` on a node with failing metadata returns
the error to its caller with an empty trace (no sink invoked); for a child
at any recursive depth, the parent invocation recovers the failure, invokes
the error sink with it, and its own outcome is unaffected (it is the
outcome of processing the remaining siblings). -/
theorem C3_metadata_failure_fatal_at_root_recovered_below :
    (∀ e re path, process_path (.badMeta e) re path = ([], .error e)) ∧
    (∀ e name rest re path,
      processEntries (.entry name (.badMeta e) :: rest) re path
        = (.onError e :: (processEntries rest re path).1,
           (processEntries rest re path).2)) := by
  refine ⟨fun e re path => rfl, fun e name rest re path => ?_⟩
  rw [processEntries_cons_entry]
  simp [process_path]

/-- Claim C4: for every regular file whose scan succeeds, the result sink
is invoked exactly once with that file's path — also when the scan result
is empty. -/
theorem C4_on_result_exactly_once (read : Except Err (List Nat))
    (re : List Char → Bool) (path : List String) (dt : List Record)
    (h : process_file read re = .ok dt) :
    process_path (.file read) re path = ([.onResult path dt], .ok ()) := by
  simp [process_path, h]

/-- Witness for C4 at a concrete input with an empty scan result: file
content `"baz\n"`, pattern `"foo"` — the sink is still invoked, with `[]`. -/
theorem C4_on_result_exactly_once_witness :
    process_file (.ok (asciiBytes "baz\n".toList)) (containsSub "foo".toList) = .ok [] ∧
    process_path (.file (.ok (asciiBytes "baz\n".toList))) (containsSub "foo".toList)
        ["b.txt"]
      = ([.onResult ["b.txt"] []], .ok ()) :=
  ⟨rfl, C4_on_result_exactly_once _ _ ["b.txt"] [] rfl⟩

/-- Claim C5: content that is not valid UTF-8 scans successfully to an
empty record list; at the walker level the result sink is invoked with the
empty result and the error sink is not invoked. -/
theorem C5_invalid_utf8_scans_empty (bts : List Nat) (re : List Char → Bool)
    (path : List String) (h : utf8Decode? bts = none) :
    process_file (.ok bts) re = .ok [] ∧
    process_path (.file (.ok bts)) re path = ([.onResult path []], .ok ()) := by
  have h1 : process_file (.ok bts) re = .ok [] := by simp [process_file, h]
  exact ⟨h1, by simp [process_path, h1]⟩

/-- Witness for C5: the single byte `0xFF` is invalid UTF-8. -/
theorem C5_invalid_utf8_scans_empty_witness :
    utf8Decode? [0xFF] = none ∧
    process_file (.ok [0xFF]) (containsSub "a".toList) = .ok [] ∧
    process_path (.file (.ok [0xFF])) (containsSub "a".toList) ["f"]
      = ([.onResult ["f"] []], .ok ()) :=
  ⟨rfl, (C5_invalid_utf8_scans_empty [0xFF] _ ["f"] rfl).1,
    (C5_invalid_utf8_scans_empty [0xFF] _ ["f"] rfl).2⟩

/-- Claim C7: an entry whose resolved type is neither regular file nor
directory is silently skipped: `process_path` returns success with an empty
trace, and as a directory child it contributes nothing to the parent's
trace or outcome. -/
theorem C7_special_silently_skipped :
    (∀ re path, process_path .special re path = ([], .ok ())) ∧
    (∀ name rest re path,
      processEntries (.entry name .special :: rest) re path
        = processEntries rest re path) := by
  refine ⟨fun re path => rfl, fun name rest re path => ?_⟩
  rw [processEntries_cons_entry]
  simp [process_path]

/-- Claim C8: when the pattern fails to compile, `run` fails with that
error before any traversal: no sink is ever invoked, and the outcome does
not depend on the filesystem at all. -/
theorem C8_invalid_pattern_no_traversal (e : Err) (root root2 : FsNode)
    (path path2 : List String) :
    run (.error e) root path = ([], .error e) ∧
    run (.error e) root path = run (.error e) root2 path2 :=
  ⟨rfl, rfl⟩

/-- Claim C10: whenever the pattern compiles, `run` returns success even if
the traversal failed (the traversal outcome is only printed); hence `main`
prints the top-level error exactly for pattern-compilation failures. -/
theorem C10_run_ok_whenever_pattern_compiles
    (cr : Except Err (List Char → Bool)) (root : FsNode) (path : List String) :
    ((∃ re, cr = .ok re) → (run cr root path).2 = .ok () ∧ mainReports cr root path = none) ∧
    (∀ e, (run cr root path).2 = .error e → cr = .error e) := by
  cases cr with
  | error e' =>
    refine ⟨fun h => ?_, fun e h => ?_⟩
    · obtain ⟨re, hre⟩ := h
      exact absurd hre (by simp)
    · simp only [run] at h
      cases h
      rfl
  | ok re =>
    exact ⟨fun _ => ⟨rfl, rfl⟩, fun e h => by simp [run] at h⟩

/-- Witness for C10: with a compiled pattern and a root whose traversal
fails (bad metadata), `run` still returns success; with a failing compile,
the returned error is the compile error. -/
theorem C10_run_ok_whenever_pattern_compiles_witness :
    ((run (.ok (containsSub "a".toList)) (.badMeta "EACCES") []).2 = .ok () ∧
      mainReports (.ok (containsSub "a".toList)) (.badMeta "EACCES") [] = none) ∧
    (Except.error "bad" : Except Err (List Char → Bool)) = .error "bad" :=
  ⟨(C10_run_ok_whenever_pattern_compiles (.ok (containsSub "a".toList))
      (.badMeta "EACCES") []).1 ⟨_, rfl⟩,
    (C10_run_ok_whenever_pattern_compiles (.error "bad") (.badMeta "EACCES") []).2
      "bad" rfl⟩

/-- Claim C1: a failing recursive walk of a child entry is captured, the
error sink is invoked with it, and the remaining siblings are still
processed (the parent's trace continues with theirs and its outcome is
theirs).  In particular, a directory holding one entry with failing
metadata among readable files reports each readable file to the result
sink, invokes the error sink exactly once, and succeeds. -/
theorem C1_failing_child_isolated :
    (∀ name node rest re path e,
      (process_path node re (path ++ [name])).2 = .error e →
      processEntries (.entry name node :: rest) re path
        = ((process_path node re (path ++ [name])).1
             ++ .onError e :: (processEntries rest re path).1,
           (processEntries rest re path).2)) ∧
    (∀ err name files1 files2 re path,
      (∀ d ∈ files1, IsReadableFile d) → (∀ d ∈ files2, IsReadableFile d) →
      countErrors (process_path
          (.dir (files1 ++ .entry name (.badMeta err) :: files2)) re path).1 = 1 ∧
      countResults (process_path
          (.dir (files1 ++ .entry name (.badMeta err) :: files2)) re path).1
        = files1.length + files2.length ∧
      (process_path
          (.dir (files1 ++ .entry name (.badMeta err) :: files2)) re path).2
        = .ok ()) := by
  refine ⟨fun name node rest re path e h =>
    processEntries_cons_entry_error name node rest re path e h,
    fun err name files1 files2 re path h1 h2 => ?_⟩
  have hent : ∀ d ∈ files1, ∃ nm nd, d = .entry nm nd := by
    intro d hd
    obtain ⟨nm, bts, rfl, _⟩ := h1 d hd
    exact ⟨nm, _, rfl⟩
  obtain ⟨e1, r1, _⟩ := processEntries_readable re path files1 h1
  obtain ⟨e2, r2, o2⟩ := processEntries_readable re path files2 h2
  have hbad : processEntries (.entry name (.badMeta err) :: files2) re path
      = (.onError err :: (processEntries files2 re path).1,
         (processEntries files2 re path).2) := by
    rw [processEntries_cons_entry]
    simp [process_path]
  have hdir : process_path (.dir (files1 ++ .entry name (.badMeta err) :: files2)) re path
      = processEntries (files1 ++ .entry name (.badMeta err) :: files2) re path := rfl
  rw [hdir, processEntries_append re path _ files1 hent, hbad]
  refine ⟨?_, ?_, o2⟩
  · rw [countErrors_append, e1, countErrors_cons_onError, e2]
  · rw [countResults_append, r1, countResults_cons_onError, r2]

/-- Witness for C1: a directory listing a readable file `a`, an entry `bad`
with failing metadata, and a readable file `b` — one error, two results,
overall success. -/
theorem C1_failing_child_isolated_witness :
    countErrors (process_path
        (.dir ([.entry "a" (.file (.ok (asciiBytes "x".toList)))]
          ++ .entry "bad" (.badMeta "EACCES")
            :: [.entry "b" (.file (.ok (asciiBytes "y".toList)))]))
        (containsSub "x".toList) []).1 = 1 ∧
    countResults (process_path
        (.dir ([.entry "a" (.file (.ok (asciiBytes "x".toList)))]
          ++ .entry "bad" (.badMeta "EACCES")
            :: [.entry "b" (.file (.ok (asciiBytes "y".toList)))]))
        (containsSub "x".toList) []).1 = 2 ∧
    (process_path
        (.dir ([.entry "a" (.file (.ok (asciiBytes "x".toList)))]
          ++ .entry "bad" (.badMeta "EACCES")
            :: [.entry "b" (.file (.ok (asciiBytes "y".toList)))]))
        (containsSub "x".toList) []).2 = .ok () := by
  have h := C1_failing_child_isolated.2 "EACCES" "bad"
    [.entry "a" (.file (.ok (asciiBytes "x".toList)))]
    [.entry "b" (.file (.ok (asciiBytes "y".toList)))]
    (containsSub "x".toList) []
    (fun d hd => by
      rw [List.mem_singleton] at hd
      subst hd
      exact ⟨"a", asciiBytes "x".toList, rfl, rfl⟩)
    (fun d hd => by
      rw [List.mem_singleton] at hd
      subst hd
      exact ⟨"b", asciiBytes "y".toList, rfl, rfl⟩)
  exact ⟨h.1, h.2.1, h.2.2⟩

/-- Claim C9: when the directory-listing iterator itself yields a failed
item, `process_path` of that directory returns the error at once — the
entries after the failed item are not visited and this invocation adds no
error-sink event for it; an enclosing parent invocation is the one that
routes it to the error sink. -/
theorem C9_entry_resolution_failure_aborts :
    (∀ e pre rest re path, (∀ d ∈ pre, ∃ nm nd, d = .entry nm nd) →
      processEntries (pre ++ .entryErr e :: rest) re path
        = ((processEntries pre re path).1, .error e)) ∧
    (∀ e name entries siblings re path,
      (process_path (.dir entries) re (path ++ [name])).2 = .error e →
      processEntries (.entry name (.dir entries) :: siblings) re path
        = ((process_path (.dir entries) re (path ++ [name])).1
             ++ .onError e :: (processEntries siblings re path).1,
           (processEntries siblings re path).2)) := by
  refine ⟨fun e pre rest re path h => ?_,
    fun e name entries siblings re path h =>
      processEntries_cons_entry_error name (.dir entries) siblings re path e h⟩
  rw [processEntries_append re path _ pre h, processEntries_cons_err]
  simp

/-- Witness for C9: a listing with one readable file, then a failed
iterator item, then another entry — the walk of the directory stops at the
failed item with its error and the trailing entry is not visited. -/
theorem C9_entry_resolution_failure_aborts_witness :
    processEntries
        ([.entry "a" (.file (.ok (asciiBytes "x".toList)))]
          ++ .entryErr "EIO" :: [.entry "b" (.file (.ok (asciiBytes "y".toList)))])
        (containsSub "x".toList) []
      = ((processEntries [.entry "a" (.file (.ok (asciiBytes "x".toList)))]
            (containsSub "x".toList) []).1, .error "EIO") :=
  C9_entry_resolution_failure_aborts.1 "EIO"
    [.entry "a" (.file (.ok (asciiBytes "x".toList)))]
    [.entry "b" (.file (.ok (asciiBytes "y".toList)))]
    (containsSub "x".toList) []
    (fun d hd => by
      rw [List.mem_singleton] at hd
      subst hd
      exact ⟨"a", _, rfl⟩)

/-- Claim C2: a successful scan returns exactly the matching lines in file
order — record line indices are strictly increasing zero-based positions in
the line-split sequence, each record is a matching line, and every matching
line is returned; and on content `"foo\nbar\nfoobar\n"` with pattern
`"foo"` the result is `[(0, "foo"), (2, "foobar")]`. -/
theorem C2_scan_returns_exactly_matches :
    (∀ bts ss re recs, utf8Decode? bts = some ss →
      process_file (.ok bts) re = .ok recs →
      (recs.map Record.line).Pairwise (· < ·) ∧
      (∀ r ∈ recs, re r.tx = true ∧
        ∃ h : r.line < (strLines ss).length, (strLines ss).get ⟨r.line, h⟩ = r.tx) ∧
      (∀ j, ∀ h : j < (strLines ss).length, re ((strLines ss).get ⟨j, h⟩) = true →
        (⟨j, (strLines ss).get ⟨j, h⟩⟩ : Record) ∈ recs)) ∧
    process_file (.ok (asciiBytes "foo\nbar\nfoobar\n".toList))
        (containsSub "foo".toList)
      = .ok [⟨0, "foo".toList⟩, ⟨2, "foobar".toList⟩] := by
  refine ⟨fun bts ss re recs hdec hres => ?_, by rfl⟩
  simp only [process_file, hdec, Except.ok.injEq] at hres
  subst hres
  refine ⟨scanLines_map_line_lt re (strLines ss) 0, ?_, ?_⟩
  · intro r hr
    obtain ⟨hre, _, hlt, hget⟩ := scanLines_mem re (strLines ss) 0 r hr
    exact ⟨hre, hlt, hget⟩
  · intro j h hm
    have hc := scanLines_complete re (strLines ss) 0 j h hm
    rwa [Nat.zero_add] at hc

/-- Witness for C2 at Scenario A: the records returned for
`"foo\nbar\nfoobar\n"` under pattern `"foo"` have strictly increasing line
indices. -/
theorem C2_scan_returns_exactly_matches_witness :
    (([⟨0, "foo".toList⟩, ⟨2, "foobar".toList⟩] : List Record).map
        Record.line).Pairwise (· < ·) :=
  (C2_scan_returns_exactly_matches.1 (asciiBytes "foo\nbar\nfoobar\n".toList)
    "foo\nbar\nfoobar\n".toList (containsSub "foo".toList)
    [⟨0, "foo".toList⟩, ⟨2, "foobar".toList⟩] rfl
    C2_scan_returns_exactly_matches.2).1

/-- Counterexample to claim C6: a lone carriage return is not treated as a
line terminator — `"a\rb"` splits into the single line `"a\rb"`, not into
the two lines produced for `"a\nb"`, and a scan of `"a\rb"` for `"b"`
returns that whole text as line 0. -/
theorem C6_universal_newlines_counterexample :
    strLines "a\rb".toList ≠ strLines "a\nb".toList ∧
    strLines "a\rb".toList = ["a\rb".toList] ∧
    strLines "a\nb".toList = ["a".toList, "b".toList] ∧
    process_file (.ok (asciiBytes "a\rb".toList)) (containsSub "b".toList)
      = .ok [⟨0, "a\rb".toList⟩] :=
  ⟨by decide, by decide, by decide, by rfl⟩

/-- Claim C6 as amended: the scan splits content at `"\n"` and `"\r\n"`
line terminators, which yield the same line sequence; a lone `"\r"` is not
a line terminator and stays in the line text (newline-free content is one
single verbatim line); each line is tested independently, in order, with
zero-based positional indices, by the scanning loop. -/
theorem C6_line_splitting_amended :
    (∀ ls : List (List Char), (∀ l ∈ ls, '\n' ∉ l ∧ '\r' ∉ l) →
      strLines (termJoin ['\n'] ls) = ls ∧ strLines (termJoin ['\r', '\n'] ls) = ls) ∧
    (∀ l : List Char, '\n' ∉ l → strLines l = if l = [] then [] else [l]) ∧
    (∀ bts ss re, utf8Decode? bts = some ss →
      process_file (.ok bts) re = .ok (scanLines re 0 (strLines ss))) :=
  ⟨strLines_termJoin, strLines_single_line, fun bts ss re hdec => by
    simp [process_file, hdec]⟩

/-- Witness for the amended C6: the lines `["a", "b"]` are recovered from
both the `"\n"`- and the `"\r\n"`-terminated encodings, and `"x\r"` is one
verbatim line. -/
theorem C6_line_splitting_amended_witness :
    strLines (termJoin ['\n'] [['a'], ['b']]) = [['a'], ['b']] ∧
    strLines (termJoin ['\r', '\n'] [['a'], ['b']]) = [['a'], ['b']] ∧
    strLines ['x', '\r'] = [['x', '\r']] := by
  have h1 := C6_line_splitting_amended.1 [['a'], ['b']] (by decide)
  have h2 := C6_line_splitting_amended.2.1 ['x', '\r'] (by decide)
  exact ⟨h1.1, h1.2, by simpa using h2⟩

end Pgrep
